import Mathlib

/-!
Verification of the concurrent content-addressed fetch & deduplication
pipeline of this repository (modules download.py, deduplicate.py, utils.py).

The Python sources are shallowly embedded below:

* pure helpers (sanitize_filename, the derived artifact name, the URL readers,
  check_url_headers, the probe deduplication fold, netloc grouping) become
  executable Lean functions;
* the concurrent hash-dedup coordinator of download.py (download_file) becomes
  a small-step transition system whose atomic steps are exactly the regions of
  the source that run without an await point: the lock-guarded check-and-insert
  on the shared hash set, and the synchronous exists-check-then-write on disk;
* the asyncio.Semaphore discipline becomes a transition system whose start
  step is guarded by the number of tasks currently holding a slot;
* the retry loop of download_file becomes a structurally recursive function
  over an abstract per-attempt network behaviour.
-/

namespace MJSR

/-- utils.py CONFIG: maximum number of concurrent downloads (default 10). -/
def maxConcurrentDownloads : Nat := 10

/-- utils.py CONFIG: per-attempt download timeout (time-units). -/
def downloadTimeout : Nat := 30

/-- download.py download_file: number of attempts (`retries = 3`). -/
def downloadRetries : Nat := 3

/-- download.py download_file: fixed back-off between attempts (`asyncio.sleep(2)`). -/
def backoffUnits : Nat := 2

/-- download.py sanitize_filename, first step: `re.sub(r'^https?://', '', url)`
removes a single leading http:// or https:// scheme. -/
def stripScheme (s : String) : String :=
  if List.isPrefixOf "http://".data s.data then String.mk (s.data.drop 7)
  else if List.isPrefixOf "https://".data s.data then String.mk (s.data.drop 8)
  else s

/-- download.py sanitize_filename: the character class `[\\/*?:"<>|]` replaced
by an underscore. -/
def isReservedChar (c : Char) : Bool :=
  c == '\\' || c == '/' || c == '*' || c == '?' || c == ':' ||
  c == '"' || c == '<' || c == '>' || c == '|'

/-- download.py sanitize_filename: strip the scheme, replace reserved
characters with an underscore, replace slashes with an underscore (already
covered by the character class), and force a `.js` ending. -/
def sanitize_filename (url : String) : String :=
  let f1 := stripScheme url
  let f2 := String.mk (f1.data.map (fun c => if isReservedChar c then '_' else c))
  let f3 := String.mk (f2.data.map (fun c => if c == '/' then '_' else c))
  if List.isSuffixOf ".js".data f3.data then f3 else f3 ++ ".js"

/-- download.py download_file: the derived artifact name
`f"{base_filename}__{file_hash}.js"` where `base_filename = sanitize_filename(url)`. -/
def deriveName (url fileHash : String) : String :=
  sanitize_filename url ++ "__" ++ fileHash ++ ".js"

/-- Two suffixes of the same list with the same length are equal. -/
theorem suffix_eq_of_length {α : Type _} {l₁ l₂ l : List α}
    (h₁ : l₁ <:+ l) (h₂ : l₂ <:+ l) (hl : l₁.length = l₂.length) : l₁ = l₂ := by
  obtain ⟨a, ha⟩ := h₁
  obtain ⟨b, hb⟩ := h₂
  have hab : a ++ l₁ = b ++ l₂ := by rw [ha, hb]
  exact (List.append_inj' hab hl).2

/-- The length of a string is the length of its character list. -/
theorem string_length_data (s : String) : s.data.length = s.length := rfl

/-- The derived artifact name determines the content hash: equal names with
equal-length hashes force equal hashes. -/
theorem deriveName_hash_eq (u₁ u₂ h₁ h₂ : String) (hl : h₁.length = h₂.length)
    (he : deriveName u₁ h₁ = deriveName u₂ h₂) : h₁ = h₂ := by
  have h0 := congrArg String.data he
  simp only [deriveName, String.data_append, List.append_assoc] at h0
  have hdl : h₁.data.length = h₂.data.length := by
    rw [string_length_data, string_length_data, hl]
  have htail : "__".data ++ (h₁.data ++ ".js".data)
      = "__".data ++ (h₂.data ++ ".js".data) :=
    (List.append_inj' h0 (by simp [hdl])).2
  have hmid : h₁.data ++ ".js".data = h₂.data ++ ".js".data :=
    List.append_cancel_left htail
  have hdata : h₁.data = h₂.data := (List.append_inj hmid hdl).1
  cases h₁
  cases h₂
  exact congrArg String.mk hdata

/-- `n` is an artifact file name for content identifier `h`: it ends in
`__<h>.js`, which is exactly the hash-dependent part `deriveName` appends. -/
def isFileFor (h n : String) : Bool :=
  List.isSuffixOf ("__" ++ h ++ ".js").data n.data

/-- A derived name is a file name for `h` exactly when `h` is its own hash
(hashes compared at equal length, as sha256 hex digests always are). -/
theorem isFileFor_deriveName (h u h' : String) (hl : h.length = h'.length) :
    isFileFor h (deriveName u h') = true ↔ h = h' := by
  constructor
  · intro hsuf
    have hs : ("__" ++ h ++ ".js").data <:+ (deriveName u h').data := by
      simpa [isFileFor] using hsuf
    have hs' : ("__" ++ h' ++ ".js").data <:+ (deriveName u h').data := by
      refine ⟨(sanitize_filename u).data, ?_⟩
      simp [deriveName, String.data_append, List.append_assoc]
    have hlen : ("__" ++ h ++ ".js").data.length = ("__" ++ h' ++ ".js").data.length := by
      simp [String.data_append, string_length_data, hl]
    have heq := suffix_eq_of_length hs hs' hlen
    simp only [String.data_append, List.append_assoc] at heq
    have h1 : h.data ++ ".js".data = h'.data ++ ".js".data :=
      List.append_cancel_left heq
    have hdl : h.data.length = h'.data.length := by
      rw [string_length_data, string_length_data, hl]
    have hdata : h.data = h'.data := (List.append_inj h1 hdl).1
    cases h
    cases h'
    exact congrArg String.mk hdata
  · intro he
    subst he
    have : ("__" ++ h ++ ".js").data <:+ (deriveName u h).data := by
      refine ⟨(sanitize_filename u).data, ?_⟩
      simp [deriveName, String.data_append, List.append_assoc]
    simpa [isFileFor] using this

/-- Claim C7: the artifact name derivation is a pure function of the source
URL and the content identifier with the shape
`sanitize_filename(url) ++ "__" ++ hash ++ ".js"` (sanitization strips the
http/https scheme and replaces reserved characters with an underscore), and
two fetches with distinct content identifiers (sha256 hex digests, hence of
equal length 64) always receive distinct file names. -/
theorem nameDerivation (u₁ u₂ h₁ h₂ : String)
    (hl₁ : h₁.length = 64) (hl₂ : h₂.length = 64) (hne : h₁ ≠ h₂) :
    deriveName u₁ h₁ = sanitize_filename u₁ ++ "__" ++ h₁ ++ ".js" ∧
    deriveName u₁ h₁ ≠ deriveName u₂ h₂ := by
  refine ⟨rfl, fun he => hne ?_⟩
  exact deriveName_hash_eq u₁ u₂ h₁ h₂ (by rw [hl₁, hl₂]) he

/-- Witness for C7 at concrete inputs: two URLs with distinct 64-character
content identifiers receive distinct artifact names. -/
theorem nameDerivation_witness :
    deriveName "https://a.com/app.js"
        "aaaaaaaaaaaaaaaaaaaaaaaaaaaaaaaaaaaaaaaaaaaaaaaaaaaaaaaaaaaaaaaa" ≠
      deriveName "https://a.com/app.js"
        "bbbbbbbbbbbbbbbbbbbbbbbbbbbbbbbbbbbbbbbbbbbbbbbbbbbbbbbbbbbbbbbb" :=
  (nameDerivation "https://a.com/app.js" "https://a.com/app.js"
    "aaaaaaaaaaaaaaaaaaaaaaaaaaaaaaaaaaaaaaaaaaaaaaaaaaaaaaaaaaaaaaaa"
    "bbbbbbbbbbbbbbbbbbbbbbbbbbbbbbbbbbbbbbbbbbbbbbbbbbbbbbbbbbbbbbbb"
    (by decide) (by decide) (by decide)).2

/-- A metadata probe response as observed by deduplicate.py
check_url_headers: the HTTP status and the three header values, each
defaulting to the empty string when the server omits the header
(`response.headers.get(..., '')`). A `none` probe models
`requests.exceptions.RequestException`. -/
structure ProbeResponse where
  status : Nat
  etag : String
  contentLength : String
  lastModified : String
deriving Repr, DecidableEq

/-- Python `str.strip('"')`: remove every leading and trailing double-quote
character. -/
def stripQuoteChars (s : String) : String :=
  String.mk (((s.data.dropWhile (fun c => c == '"')).reverse.dropWhile
    (fun c => c == '"')).reverse)

/-- The dict returned by deduplicate.py check_url_headers on a 200 response. -/
structure HeaderResult where
  url : String
  content_id : String
  etag : String
  content_length : String
  last_modified : String
deriving Repr, DecidableEq

/-- deduplicate.py check_url_headers: on a 200 probe response, strip quotes
from the ETag and synthesize `content_id = f"{etag}_{content_length}_{last_modified}"`;
on a non-200 status or a request exception, return `None`. -/
def check_url_headers (probe : String → Option ProbeResponse) (url : String) :
    Option HeaderResult :=
  match probe url with
  | none => none
  | some r =>
    if r.status = 200 then
      let etag := stripQuoteChars r.etag
      some ⟨url, etag ++ "_" ++ r.contentLength ++ "_" ++ r.lastModified,
        etag, r.contentLength, r.lastModified⟩
    else none

/-- The mutable state of the as_completed loop in deduplicate.py run:
the keys of `content_map`, the shared `unique_urls`, and `duplicate_count`. -/
structure DedupAcc where
  seen : List String
  unique_urls : List String
  duplicate_count : Nat
deriving Repr, DecidableEq

/-- One iteration of the as_completed loop of deduplicate.py run: a `None`
result is dropped; a result whose content_id is already in `content_map`
is counted as a duplicate; otherwise the content_id is recorded and the URL
is appended to `unique_urls`. -/
def dedupStep (acc : DedupAcc) : Option HeaderResult → DedupAcc
  | none => acc
  | some r =>
    if r.content_id ∈ acc.seen then
      { acc with duplicate_count := acc.duplicate_count + 1 }
    else
      { seen := r.content_id :: acc.seen
        unique_urls := acc.unique_urls ++ [r.url]
        duplicate_count := acc.duplicate_count }

/-- The per-domain probe pass of deduplicate.py run, processing probe results
in the given completion order (concurrent futures complete in an arbitrary
order, so the order is a parameter). Returns the unique URLs in discovery
order together with the duplicate count. -/
def dedupUrls (probe : String → Option ProbeResponse) (completion : List String) :
    List String × Nat :=
  let acc := completion.foldl (fun a u => dedupStep a (check_url_headers probe u)) ⟨[], [], 0⟩
  (acc.unique_urls, acc.duplicate_count)

/-- Modelled semantics of urllib.parse.urlparse(url).netloc for the http and
https URLs this pipeline handles: the host part between the scheme and the
first slash, query or fragment; scheme-less strings have an empty netloc. -/
def netloc (url : String) : String :=
  let rest := if List.isPrefixOf "http://".data url.data then url.data.drop 7
              else if List.isPrefixOf "https://".data url.data then url.data.drop 8
              else []
  String.mk (rest.takeWhile (fun c => c != '/' && c != '?' && c != '#'))

/-- Insert a URL into its domain group, preserving dict insertion order as in
deduplicate.py run (`domain_groups`). -/
def addToGroups : List (String × List String) → String → String → List (String × List String)
  | [], d, u => [(d, [u])]
  | (d', us) :: rest, d, u =>
    if d' = d then (d', us ++ [u]) :: rest
    else (d', us) :: addToGroups rest d u

/-- deduplicate.py run: group the input URLs by domain, preserving relative
order within each group and first-appearance order of the groups. -/
def groupByDomain (urls : List String) : List (String × List String) :=
  urls.foldl (fun gs u => addToGroups gs (netloc u) u) []

/-- deduplicate.py run: process the domain groups in order; `content_map` is
fresh per domain while `unique_urls` and `duplicate_count` are shared, so the
final list is the concatenation of the per-domain unique lists. `sched` maps
each domain's submission order to the completion order of its probes. -/
def passGroups (probe : String → Option ProbeResponse) (sched : List String → List String) :
    List (String × List String) → List String × Nat
  | [] => ([], 0)
  | g :: gs =>
    let r := dedupUrls probe (sched g.2)
    let rest := passGroups probe sched gs
    (r.1 ++ rest.1, r.2 + rest.2)

/-- The full single-target probe-based dedup pass of deduplicate.py run:
group by domain, probe every URL, keep one representative per content_id per
domain; the returned list is written line by line to the output file. -/
def dedupTargetPass (probe : String → Option ProbeResponse)
    (sched : List String → List String) (urls : List String) : List String × Nat :=
  passGroups probe sched (groupByDomain urls)

/-- A probe that answers 200 with no usable validators: no ETag, no
Content-Length, no Last-Modified. -/
def probeNoValidators : String → Option ProbeResponse :=
  fun _ => some ⟨200, "", "", ""⟩

/-- Claim C2 (code bug): two same-domain URLs whose probes answer 200 with
empty ETag, Content-Length and Last-Modified both get the content identifier
`"__"`, so the second is counted as a duplicate of the first and dropped from
the deduplicated output — empty validators ARE treated as a fingerprint
match, violating the probe-false-negative safety requirement. -/
theorem emptyValidatorsCollapse :
    check_url_headers probeNoValidators "http://a.com/one.js"
      = some ⟨"http://a.com/one.js", "__", "", "", ""⟩ ∧
    check_url_headers probeNoValidators "http://a.com/two.js"
      = some ⟨"http://a.com/two.js", "__", "", "", ""⟩ ∧
    dedupTargetPass probeNoValidators (fun l => l)
        ["http://a.com/one.js", "http://a.com/two.js"]
      = (["http://a.com/one.js"], 1) := by
  refine ⟨rfl, rfl, ?_⟩
  decide

/-- check_url_headers reports the URL it was given. -/
theorem check_url_headers_url (probe : String → Option ProbeResponse) (u : String)
    (r : HeaderResult) (h : check_url_headers probe u = some r) : r.url = u := by
  unfold check_url_headers at h
  cases hp : probe u with
  | none => rw [hp] at h; cases h
  | some resp =>
    rw [hp] at h
    by_cases hs : resp.status = 200
    · simp only [if_pos hs, Option.some.injEq] at h
      rw [← h]
    · simp only [if_neg hs] at h
      cases h

/-- The as_completed fold appends a subsequence of the completion order to
the accumulated unique URLs. -/
theorem dedupFold_sublist (probe : String → Option ProbeResponse) :
    ∀ (order : List String) (acc : DedupAcc),
    ∃ tail,
      (order.foldl (fun a u => dedupStep a (check_url_headers probe u)) acc).unique_urls
        = acc.unique_urls ++ tail ∧ List.Sublist tail order := by
  intro order
  induction order with
  | nil => exact fun acc => ⟨[], by simp, List.Sublist.refl []⟩
  | cons u rest ih =>
    intro acc
    rw [List.foldl_cons]
    cases hc : check_url_headers probe u with
    | none =>
      obtain ⟨tail, h1, h2⟩ := ih acc
      refine ⟨tail, ?_, h2.cons u⟩
      simpa [dedupStep, hc] using h1
    | some r =>
      by_cases hm : r.content_id ∈ acc.seen
      · obtain ⟨tail, h1, h2⟩ := ih { acc with duplicate_count := acc.duplicate_count + 1 }
        refine ⟨tail, ?_, h2.cons u⟩
        simpa [dedupStep, hc, hm] using h1
      · obtain ⟨tail, h1, h2⟩ := ih
          { seen := r.content_id :: acc.seen
            unique_urls := acc.unique_urls ++ [r.url]
            duplicate_count := acc.duplicate_count }
        refine ⟨r.url :: tail, ?_, ?_⟩
        · have hd : dedupStep acc (some r) =
              { seen := r.content_id :: acc.seen
                unique_urls := acc.unique_urls ++ [r.url]
                duplicate_count := acc.duplicate_count } := by
            simp [dedupStep, hm]
          rw [hd, h1]
          simp
        · rw [check_url_headers_url probe u r hc]
          exact h2.cons₂ u

/-- A per-domain pass emits a subsequence of that domain's completion order. -/
theorem dedupUrls_sublist (probe : String → Option ProbeResponse) (order : List String) :
    List.Sublist (dedupUrls probe order).1 order := by
  obtain ⟨tail, h1, h2⟩ := dedupFold_sublist probe order ⟨[], [], 0⟩
  simpa [dedupUrls, h1] using h2

/-- Claim C8 (amended): the deduplicated URL list written by the probe pass
is NOT sorted lexicographically; it is the concatenation, in domain-group
order, of each domain's first-completing representatives in probe-completion
order — a subsequence of the concatenated completion orders, so the line
order depends on the completion order of the concurrent probes. -/
theorem outputOrderAmended (probe : String → Option ProbeResponse)
    (sched : List String → List String) (urls : List String) :
    List.Sublist (dedupTargetPass probe sched urls).1
      (((groupByDomain urls).map (fun g => sched g.2)).flatten) := by
  unfold dedupTargetPass
  induction groupByDomain urls with
  | nil => simp [passGroups]
  | cons g gs ih =>
    simp only [passGroups, List.map_cons, List.flatten_cons]
    exact (dedupUrls_sublist probe (sched g.2)).append ih

/-- A probe giving the two URLs of the counterexample distinct validators. -/
def probeTwoDistinct : String → Option ProbeResponse := fun u =>
  if u = "http://a.com/a.js" then some ⟨200, "e1", "10", "t1"⟩
  else if u = "http://a.com/b.js" then some ⟨200, "e2", "20", "t2"⟩
  else none

/-- Claim C8 counterexample: with input list [a.js, b.js] on one domain and
probe completion order reversed (a legal completion order of the concurrent
HEAD requests), the written URL list is [b.js, a.js], whose two lines are in
strictly descending lexicographic order — the output is not sorted. -/
theorem sortedCounterexample :
    (dedupTargetPass probeTwoDistinct List.reverse
        ["http://a.com/a.js", "http://a.com/b.js"]).1
      = ["http://a.com/b.js", "http://a.com/a.js"] ∧
    "http://a.com/a.js" < "http://a.com/b.js" := by
  refine ⟨by decide, ?_⟩
  rw [String.lt_iff_toList_lt]
  decide

/-- Python str.strip() on a character list: drop leading and trailing
whitespace. -/
def pyStripL (l : List Char) : List Char :=
  ((l.dropWhile Char.isWhitespace).reverse.dropWhile Char.isWhitespace).reverse

/-- Python str.strip(). -/
def pyStrip (s : String) : String := String.mk (pyStripL s.data)

/-- Python str.split() with no separator: split on runs of whitespace,
ignoring leading and trailing whitespace. `cur` holds the current word,
reversed. -/
def pyWordsAux : List Char → List Char → List (List Char)
  | [], cur => if cur = [] then [] else [cur.reverse]
  | c :: cs, cur =>
    if Char.isWhitespace c then
      if cur = [] then pyWordsAux cs [] else cur.reverse :: pyWordsAux cs []
    else pyWordsAux cs (c :: cur)

/-- Python str.split() with no separator. -/
def pyWords (l : List Char) : List (List Char) := pyWordsAux l []

/-- download.py run: `urls = [line.split()[0] for line in f if line.strip()]`
— blank lines dropped, first whitespace-delimited token kept. -/
def readUrlsFetch (lines : List String) : List String :=
  (lines.filter (fun l => !(pyStrip l == ""))).map
    (fun l => String.mk ((pyWords l.data).headD []))

/-- deduplicate.py run: `urls = [line.strip() for line in f if line.strip()]`
— blank lines dropped, the ENTIRE stripped line kept. -/
def readUrlsProbe (lines : List String) : List String :=
  (lines.filter (fun l => !(pyStrip l == ""))).map pyStrip

/-- The first word found while a partial word `cur` is pending. -/
theorem pyWordsAux_headD (l : List Char) :
    ∀ cur : List Char, cur ≠ [] →
    (pyWordsAux l cur).headD []
      = cur.reverse ++ l.takeWhile (fun c => !Char.isWhitespace c) := by
  induction l with
  | nil =>
    intro cur hcur
    simp [pyWordsAux, hcur]
  | cons c cs ih =>
    intro cur hcur
    by_cases hws : Char.isWhitespace c
    · simp [pyWordsAux, hws, hcur, List.takeWhile_cons]
    · have := ih (c :: cur) (by simp)
      simp only [pyWordsAux, if_neg hws] at *
      rw [this]
      simp [List.takeWhile_cons, hws]

/-- `line.split()[0]`: the first token is the maximal non-whitespace run
after the leading whitespace. -/
theorem pyWords_headD (l : List Char) :
    (pyWords l).headD []
      = (l.dropWhile Char.isWhitespace).takeWhile (fun c => !Char.isWhitespace c) := by
  induction l with
  | nil => simp [pyWords, pyWordsAux]
  | cons c cs ih =>
    by_cases hws : Char.isWhitespace c
    · simpa [pyWords, pyWordsAux, hws, List.dropWhile_cons] using ih
    · have := pyWordsAux_headD cs [c] (by simp)
      simp only [pyWords, pyWordsAux, if_neg hws] at *
      rw [this]
      simp [List.dropWhile_cons, List.takeWhile_cons, hws]

/-- takeWhile runs through a prefix on which the predicate holds. -/
theorem takeWhile_append_of_sat {p : Char → Bool} :
    ∀ {a b : List Char}, (∀ c ∈ a, p c = true) →
    (a ++ b).takeWhile p = a ++ b.takeWhile p := by
  intro a
  induction a with
  | nil => intro b _; simp
  | cons x xs ih =>
    intro b ha
    have hx : p x = true := ha x (by simp)
    simp only [List.cons_append, List.takeWhile_cons, hx, if_true]
    rw [ih (fun c hc => ha c (by simp [hc]))]

/-- Elements of takeWhile satisfy the predicate. -/
theorem mem_takeWhile_sat {p : Char → Bool} :
    ∀ {l : List Char} {c : Char}, c ∈ l.takeWhile p → p c = true := by
  intro l
  induction l with
  | nil => intro c hc; simp [List.takeWhile] at hc
  | cons x xs ih =>
    intro c hc
    rw [List.takeWhile_cons] at hc
    by_cases hx : p x
    · simp only [if_pos hx, List.mem_cons] at hc
      cases hc with
      | inl h => exact h ▸ hx
      | inr h => exact ih h
    · simp [if_neg hx] at hc

/-- Every list splits as its right-trimmed part followed by trailing
whitespace. -/
theorem rtrim_decomp (x : List Char) :
    x = (x.reverse.dropWhile Char.isWhitespace).reverse
        ++ (x.reverse.takeWhile Char.isWhitespace).reverse
      ∧ ∀ c ∈ (x.reverse.takeWhile Char.isWhitespace).reverse,
          Char.isWhitespace c = true := by
  constructor
  · have h := List.takeWhile_append_dropWhile (p := Char.isWhitespace) (l := x.reverse)
    have h2 := congrArg List.reverse h
    simp only [List.reverse_append, List.reverse_reverse] at h2
    exact h2.symm
  · intro c hc
    rw [List.mem_reverse] at hc
    exact mem_takeWhile_sat hc

/-- When the stripped line has no internal whitespace, the first token IS the
stripped line. -/
theorem firstToken_eq_strip (l : List Char)
    (hnw : ∀ c ∈ pyStripL l, Char.isWhitespace c = false) :
    (pyWords l).headD [] = pyStripL l := by
  rw [pyWords_headD]
  set d := l.dropWhile Char.isWhitespace with hd
  obtain ⟨hdec, hws⟩ := rtrim_decomp d
  have hstrip : pyStripL l = (d.reverse.dropWhile Char.isWhitespace).reverse := rfl
  rw [hstrip]
  conv =>
    lhs
    rw [hdec]
  rw [takeWhile_append_of_sat (fun c hc => by
    have := hnw c (hstrip ▸ hc)
    simp [this])]
  have htail : ((d.reverse.takeWhile Char.isWhitespace).reverse).takeWhile
      (fun c => !Char.isWhitespace c) = [] := by
    cases he : (d.reverse.takeWhile Char.isWhitespace).reverse with
    | nil => simp
    | cons y ys =>
      have hy : Char.isWhitespace y = true := by
        have : y ∈ (d.reverse.takeWhile Char.isWhitespace).reverse := by
          rw [he]; simp
        exact hws y this
      simp [List.takeWhile_cons, hy]
  rw [htail]
  simp

/-- Claim C9 (amended): both passes ignore blank lines, but only the
fetch/exact pass takes the first whitespace-delimited token of each non-blank
line; the probe-based dedup pass takes the entire stripped line. The two
readers agree exactly when no non-blank line has internal whitespace. -/
theorem readerAmended (lines : List String)
    (hnw : ∀ l ∈ lines, ∀ c ∈ pyStripL l.data, Char.isWhitespace c = false) :
    readUrlsFetch lines = readUrlsProbe lines ∧
    ∀ b, pyStrip b = "" →
      readUrlsFetch (b :: lines) = readUrlsFetch lines ∧
      readUrlsProbe (b :: lines) = readUrlsProbe lines := by
  constructor
  · unfold readUrlsFetch readUrlsProbe
    apply List.map_congr_left
    intro l hl
    have hmem : l ∈ lines := List.mem_of_mem_filter hl
    rw [firstToken_eq_strip l.data (hnw l hmem)]
    rfl
  · intro b hb
    constructor
    · unfold readUrlsFetch
      congr 1
      rw [List.filter_cons]
      simp [hb]
    · unfold readUrlsProbe
      congr 1
      rw [List.filter_cons]
      simp [hb]

/-- Witness for the amended C9 at concrete inputs: on a file whose non-blank
lines carry a single token, the two readers agree, and a blank line is
ignored by both. -/
theorem readerAmended_witness :
    readUrlsFetch ["http://e.com/a.js", "  http://e.com/b.js  "]
      = readUrlsProbe ["http://e.com/a.js", "  http://e.com/b.js  "] ∧
    readUrlsFetch ["   ", "http://e.com/a.js", "  http://e.com/b.js  "]
      = readUrlsFetch ["http://e.com/a.js", "  http://e.com/b.js  "] :=
  ⟨(readerAmended ["http://e.com/a.js", "  http://e.com/b.js  "] (by decide)).1,
   ((readerAmended ["http://e.com/a.js", "  http://e.com/b.js  "] (by decide)).2
     "   " (by decide)).1⟩

/-- Claim C9 counterexample: on the line `"http://x.com/a.js extra"`, the
fetch pass reads `"http://x.com/a.js"` but the probe-based dedup pass reads
the whole stripped line — the dedup pass does NOT take the first
whitespace-delimited token. -/
theorem readerCounterexample :
    readUrlsFetch ["http://x.com/a.js extra", "", "   "] = ["http://x.com/a.js"] ∧
    readUrlsProbe ["http://x.com/a.js extra", "", "   "] = ["http://x.com/a.js extra"] ∧
    readUrlsProbe ["http://x.com/a.js extra", "", "   "]
      ≠ readUrlsFetch ["http://x.com/a.js extra", "", "   "] :=
  ⟨by decide, by decide, by decide⟩

/-- The state of one target as seen by deduplicate.py run in normal mode:
either the input file is missing (`continue` after the ERROR log), or it
yields a — possibly empty — URL list (an empty list hits the `continue`
after the WARN log). -/
inductive TargetInput where
  | missing : TargetInput
  | urls : List String → TargetInput
deriving Repr, DecidableEq

/-- deduplicate.py run, normal mode: iterate over `args.targets`; a missing
input file or an empty URL list skips to the next target; the first target
that completes a dedup pass hits the `return len(unique_urls) > 0` INSIDE the
for loop. Returns the Python return value (`none` models falling off the
loop, i.e. Python's implicit None) and the list of targets whose dedup pass
ran. -/
def runNormal (probe : String → Option ProbeResponse)
    (sched : List String → List String) :
    List (String × TargetInput) → Option Bool × List String
  | [] => (none, [])
  | (_, TargetInput.missing) :: rest => runNormal probe sched rest
  | (_, TargetInput.urls []) :: rest => runNormal probe sched rest
  | (tname, TargetInput.urls (u :: us)) :: _ =>
    let r := dedupTargetPass probe sched (u :: us)
    (some (decide (0 < r.1.length)), [tname])

/-- Claim C10: in normal mode the probe-based dedup entry point returns from
inside the per-target loop after the first target that completes a dedup
pass: targets with a missing input file or an empty URL list are skipped, and
once a target with a non-empty URL list is processed, the remaining targets
are never touched — the result equals the result on that single target alone,
and the processed-target list names only it. -/
theorem firstTargetReturn (probe : String → Option ProbeResponse)
    (sched : List String → List String) (tname : String) (u : String)
    (us : List String) (rest : List (String × TargetInput)) (t₂ : String) :
    runNormal probe sched ((tname, TargetInput.urls (u :: us)) :: rest)
      = runNormal probe sched [(tname, TargetInput.urls (u :: us))] ∧
    (runNormal probe sched ((tname, TargetInput.urls (u :: us)) :: rest)).2 = [tname] ∧
    runNormal probe sched ((t₂, TargetInput.missing) :: rest) = runNormal probe sched rest ∧
    runNormal probe sched ((t₂, TargetInput.urls []) :: rest) = runNormal probe sched rest :=
  ⟨rfl, rfl, rfl, rfl⟩

/-- The observable result of one retrieval attempt of download.py
download_file: either an HTTP response with a status and a body, or a raised
exception (timeout, connection error — anything caught by `except`). -/
inductive AttemptResult where
  | response : Nat → String → AttemptResult
  | exception : AttemptResult
deriving Repr, DecidableEq

/-- The terminal result of download_file's attempt loop: a 200 body handed to
the dedup section, an immediate failure on a non-200 status, a failure after
an exception on the final attempt, or the (unreachable for positive retries)
fall-through of the for loop. -/
inductive FetchResult where
  | success : String → FetchResult
  | httpFail : FetchResult
  | netFail : FetchResult
  | fellThrough : FetchResult
deriving Repr, DecidableEq

/-- The observable trace of download_file's attempt loop: how many attempts
were issued, which back-off sleeps happened between consecutive attempts, and
the terminal result. -/
structure LoopTrace where
  attemptsUsed : Nat
  sleeps : List Nat
  result : FetchResult
deriving Repr, DecidableEq

/-- download.py download_file, `for attempt in range(retries)`: a 200
response returns the body; any other status immediately counts the URL failed
and returns; an exception sleeps `2` and continues when `attempt < retries - 1`,
else counts the URL failed and returns. `net` gives each attempt's outcome;
`fuel` is the number of loop iterations left. -/
def loopGo (net : Nat → AttemptResult) (retries : Nat) :
    Nat → Nat → List Nat → LoopTrace
  | 0, attempt, sleeps => ⟨attempt, sleeps, FetchResult.fellThrough⟩
  | fuel + 1, attempt, sleeps =>
    match net attempt with
    | AttemptResult.response status body =>
      if status = 200 then ⟨attempt + 1, sleeps, FetchResult.success body⟩
      else ⟨attempt + 1, sleeps, FetchResult.httpFail⟩
    | AttemptResult.exception =>
      if attempt < retries - 1 then
        loopGo net retries fuel (attempt + 1) (sleeps ++ [backoffUnits])
      else ⟨attempt + 1, sleeps, FetchResult.netFail⟩

/-- download.py download_file's attempt loop with `retries = 3`, starting at
attempt 0 with no sleeps performed. -/
def download_attempts (net : Nat → AttemptResult) : LoopTrace :=
  loopGo net downloadRetries downloadRetries 0 []

/-- Whether an attempt's outcome is a failure (anything but a 200 response). -/
def attemptFailed : AttemptResult → Bool
  | AttemptResult.response s _ => !(s == 200)
  | AttemptResult.exception => true

/-- A network behaviour that answers 404 on every attempt. -/
def netAlways404 : Nat → AttemptResult := fun _ => AttemptResult.response 404 ""

/-- Claim C3 counterexample: a URL that always answers 404 — every retrieval
attempt fails — is attempted exactly once, with no back-off wait, not the
configured 3 times: the retry bound does not hold for non-200 failures. -/
theorem retryCountCounterexample :
    attemptFailed (netAlways404 0) = true ∧
    attemptFailed (netAlways404 1) = true ∧
    attemptFailed (netAlways404 2) = true ∧
    (download_attempts netAlways404).attemptsUsed = 1 ∧
    (download_attempts netAlways404).attemptsUsed ≠ 3 ∧
    (download_attempts netAlways404).sleeps = [] ∧
    (download_attempts netAlways404).result = FetchResult.httpFail := by
  refine ⟨rfl, rfl, rfl, ?_, ?_, ?_, ?_⟩ <;> decide

/-- Claim C3 (amended): for every URL whose every retrieval attempt raises a
network exception (timeout or connection error), the fetcher performs exactly
3 attempts — no more, no fewer — with a fixed back-off wait of 2 time-units
between consecutive attempts (two waits, no jitter, no exponential growth),
and the outcome is Failed. (A non-200 response, though also a failure, ends
the loop after that single attempt — see the counterexample.) -/
theorem retryBoundAmended (net : Nat → AttemptResult)
    (h : ∀ k, net k = AttemptResult.exception) :
    download_attempts net = ⟨3, [2, 2], FetchResult.netFail⟩ := by
  unfold download_attempts downloadRetries
  simp [loopGo, h, backoffUnits]

/-- Witness for the amended C3: the always-exception behaviour yields exactly
3 attempts with back-off [2, 2] and a network failure. -/
theorem retryBoundAmended_witness :
    download_attempts (fun _ => AttemptResult.exception)
      = ⟨3, [2, 2], FetchResult.netFail⟩ :=
  retryBoundAmended (fun _ => AttemptResult.exception) (fun _ => rfl)

/-- A network behaviour answering 404 on the first attempt (and exceptions
after, which are never reached). -/
def net404First : Nat → AttemptResult := fun j =>
  if j = 0 then AttemptResult.response 404 "" else AttemptResult.exception

/-- Claim C4 counterexample: a 404 response on attempt 0 (with the cap at 3)
does NOT lead to another attempt: the loop returns immediately with the URL
counted failed after a single attempt, unlike a network exception. -/
theorem non200RetryCounterexample :
    net404First 0 = AttemptResult.response 404 "" ∧
    (download_attempts net404First).attemptsUsed = 1 ∧
    (download_attempts net404First).result = FetchResult.httpFail :=
  ⟨rfl, by decide, by decide⟩

/-- Claim C4 (amended): a response with status other than 200 is NOT retried:
if the first k attempts raise exceptions (k < 3) and attempt k answers with a
non-200 status, the loop terminates right there with outcome Failed after
k + 1 attempts and k back-off waits — only exceptions are retried up to the
attempt cap. -/
theorem non200Amended (net : Nat → AttemptResult) (k s : Nat) (b : String)
    (hk : k < 3) (hpre : ∀ j, j < k → net j = AttemptResult.exception)
    (hs : net k = AttemptResult.response s b) (hne : s ≠ 200) :
    download_attempts net = ⟨k + 1, List.replicate k backoffUnits, FetchResult.httpFail⟩ := by
  unfold download_attempts downloadRetries
  interval_cases k
  · simp [loopGo, hs, hne]
  · have h0 := hpre 0 (by omega)
    simp [loopGo, h0, hs, hne, backoffUnits]
  · have h0 := hpre 0 (by omega)
    have h1 := hpre 1 (by omega)
    simp [loopGo, h0, h1, hs, hne, backoffUnits]

/-- Witness for the amended C4: a 404 on the very first attempt gives one
attempt, no sleeps, and an immediate failure. -/
theorem non200Amended_witness :
    download_attempts net404First = ⟨1, [], FetchResult.httpFail⟩ :=
  non200Amended net404First 0 404 "" (by omega)
    (fun j hj => absurd hj (Nat.not_lt_zero j)) rfl (by omega)

/-- The lifecycle of one download task with respect to the global
asyncio.Semaphore of download.py run: waiting to acquire a slot, holding a
slot (the retrieval is in flight), or finished (the `async with semaphore`
block released the slot on whatever exit path was taken). -/
inductive SlotPhase where
  | waiting : SlotPhase
  | inFlight : SlotPhase
  | finished : SlotPhase
deriving Repr, DecidableEq

/-- The number of tasks currently holding a semaphore slot. -/
def inFlightCount (s : Multiset SlotPhase) : Nat :=
  Multiset.countP (fun p => p = SlotPhase.inFlight) s

/-- The asyncio.Semaphore(N) discipline wrapping download_file's whole body
(`async with semaphore:`): a waiting task may enter only while fewer than N
tasks hold a slot; a task holding a slot releases it exactly when it
finishes, on every exit path (return or exception — `async with` guarantees
the release). -/
inductive SemStep (N : Nat) : Multiset SlotPhase → Multiset SlotPhase → Prop where
  | start (rest : Multiset SlotPhase) (h : inFlightCount rest < N) :
      SemStep N (SlotPhase.waiting ::ₘ rest) (SlotPhase.inFlight ::ₘ rest)
  | finish (rest : Multiset SlotPhase) :
      SemStep N (SlotPhase.inFlight ::ₘ rest) (SlotPhase.finished ::ₘ rest)

/-- At pipeline start every download task waits for a slot. -/
def allWaiting (n : Nat) : Multiset SlotPhase :=
  Multiset.replicate n SlotPhase.waiting

/-- Claim C6: at no point during a run are more than N fetch retrievals in
flight simultaneously — every state reachable under the semaphore discipline
(each fetch acquires one slot of the global semaphore of size N before
issuing the request and releases it on every exit path) from the all-waiting
initial state has at most N in-flight fetches, for any number of tasks and
any schedule. -/
theorem concurrencyBound (N n : Nat) (s : Multiset SlotPhase)
    (h : Relation.ReflTransGen (SemStep N) (allWaiting n) s) :
    inFlightCount s ≤ N := by
  induction h with
  | refl =>
    have : inFlightCount (allWaiting n) = 0 := by
      unfold allWaiting inFlightCount
      induction n with
      | zero => simp
      | succ m ihm => simpa [Multiset.replicate_succ, Multiset.countP_cons] using ihm
    omega
  | tail _ step ih =>
    cases step with
    | start rest hlt =>
      have h1 : inFlightCount (SlotPhase.inFlight ::ₘ rest) = inFlightCount rest + 1 := by
        simp [inFlightCount, Multiset.countP_cons]
      omega
    | finish rest =>
      have h1 : inFlightCount (SlotPhase.finished ::ₘ rest) = inFlightCount rest := by
        simp [inFlightCount, Multiset.countP_cons]
      have h2 : inFlightCount (SlotPhase.inFlight ::ₘ rest) = inFlightCount rest + 1 := by
        simp [inFlightCount, Multiset.countP_cons]
      omega

/-- Witness for C6 at a concrete schedule: two tasks under the default
semaphore size 10; after one start and one finish step the bound holds. -/
theorem concurrencyBound_witness :
    inFlightCount (SlotPhase.finished ::ₘ {SlotPhase.waiting}) ≤ maxConcurrentDownloads :=
  concurrencyBound maxConcurrentDownloads 2 _
    (Relation.ReflTransGen.head (SemStep.start {SlotPhase.waiting} (by decide))
      (Relation.ReflTransGen.head (SemStep.finish {SlotPhase.waiting})
        Relation.ReflTransGen.refl))

/-- A successfully completed 200 fetch: the source URL and the sha256 hex
digest of its body (the Content Identifier). -/
structure FetchTask where
  url : String
  hash : String
deriving Repr, DecidableEq

/-- The per-fetch outcome of download_file's dedup section. Both skip cases
are reported as skipped (`skipped_count += 1; return False`) in the source. -/
inductive FetchOut where
  | storedNew : FetchOut
  | skippedHashSet : FetchOut
  | skippedOnDisk : FetchOut
deriving Repr, DecidableEq

/-- State of download.py run's dedup section: the shared `hash_set`, the
artifact file names on disk, and the per-fetch outcomes so far. -/
structure RunState where
  hashSet : List String
  disk : List String
  outcomes : List (FetchTask × FetchOut)
deriving Repr, DecidableEq

/-- download_file's dedup section for one completed 200 fetch: under the
lock, skip if the hash is in `hash_set`, else insert it; then derive the
artifact name; skip if that file already exists on disk (without touching
its content), else write the body as a new file. -/
def processFetch (st : RunState) (t : FetchTask) : RunState :=
  if t.hash ∈ st.hashSet then
    { st with outcomes := st.outcomes ++ [(t, FetchOut.skippedHashSet)] }
  else
    let st1 := { st with hashSet := t.hash :: st.hashSet }
    let name := deriveName t.url t.hash
    if name ∈ st1.disk then
      { st1 with outcomes := st1.outcomes ++ [(t, FetchOut.skippedOnDisk)] }
    else
      { st1 with disk := name :: st1.disk
                 outcomes := st1.outcomes ++ [(t, FetchOut.storedNew)] }

/-- One exact pass over the completed fetches, processed in completion
order, starting with an empty hash set (the dedup set is per-run) and the
given pre-existing artifact directory. -/
def runSeq (pre : List String) (ts : List FetchTask) : RunState :=
  ts.foldl processFetch ⟨[], pre, []⟩

/-- Disk only grows along a pass: a file present now is present at the end. -/
theorem mem_disk_foldl (x : String) :
    ∀ (ts : List FetchTask) (st : RunState), x ∈ st.disk →
      x ∈ (ts.foldl processFetch st).disk := by
  intro ts
  induction ts with
  | nil => intro st h; simpa using h
  | cons t rest ih =>
    intro st h
    rw [List.foldl_cons]
    apply ih
    unfold processFetch
    by_cases h1 : t.hash ∈ st.hashSet
    · simpa [h1] using h
    · by_cases h3 : deriveName t.url t.hash ∈ st.disk
      · simpa [h1, h3] using h
      · simp [h1, h3, h]

/-- A second pass over the same completions, starting from the first pass's
final artifact directory and a fresh hash set, stores nothing: the hash sets
evolve identically, the disk never changes, and every appended outcome is a
skip. -/
theorem rerun_aux :
    ∀ (ts : List FetchTask) (st1 st2 : RunState),
      st2.hashSet = st1.hashSet →
      st2.disk = (ts.foldl processFetch st1).disk →
      (ts.foldl processFetch st2).disk = st2.disk ∧
      (∀ q ∈ (ts.foldl processFetch st2).outcomes,
        q ∈ st2.outcomes ∨ q.2 ≠ FetchOut.storedNew) := by
  intro ts
  induction ts with
  | nil =>
    intro st1 st2 _ _
    exact ⟨rfl, fun q hq => Or.inl hq⟩
  | cons t rest ih =>
    intro st1 st2 hhs hdisk
    simp only [List.foldl_cons] at hdisk ⊢
    by_cases hmem : t.hash ∈ st1.hashSet
    · -- both runs skip on the hash set
      have e1 : processFetch st1 t
          = { st1 with outcomes := st1.outcomes ++ [(t, FetchOut.skippedHashSet)] } := by
        simp [processFetch, hmem]
      have e2 : processFetch st2 t
          = { st2 with outcomes := st2.outcomes ++ [(t, FetchOut.skippedHashSet)] } := by
        simp [processFetch, hhs ▸ hmem]
      obtain ⟨hd, ho⟩ := ih (processFetch st1 t) (processFetch st2 t)
        (by rw [e1, e2]; exact hhs) (by rw [e2]; rw [e1] at hdisk ⊢; exact hdisk)
      refine ⟨by rw [hd, e2], fun q hq => ?_⟩
      rcases ho q hq with h | h
      · rw [e2] at h
        simp only [List.mem_append, List.mem_singleton] at h
        rcases h with h | h
        · exact Or.inl h
        · subst h; exact Or.inr (by simp)
      · exact Or.inr h
    · -- run 1 inserted the hash; its artifact name is on run 1's final disk
      have hname1 : deriveName t.url t.hash ∈ (processFetch st1 t).disk := by
        unfold processFetch
        simp only [if_neg hmem]
        by_cases h3 : deriveName t.url t.hash ∈ st1.disk
        · simp [h3]
        · simp [h3]
      have hnamefin : deriveName t.url t.hash ∈ st2.disk := by
        rw [hdisk]
        exact mem_disk_foldl _ rest (processFetch st1 t) hname1
      have hmem2 : t.hash ∉ st2.hashSet := by rw [hhs]; exact hmem
      have e2 : processFetch st2 t
          = { hashSet := t.hash :: st2.hashSet, disk := st2.disk,
              outcomes := st2.outcomes ++ [(t, FetchOut.skippedOnDisk)] } := by
        simp [processFetch, hmem2, hnamefin]
      have e1hs : (processFetch st1 t).hashSet = t.hash :: st1.hashSet := by
        unfold processFetch
        simp only [if_neg hmem]
        by_cases h3 : deriveName t.url t.hash ∈ st1.disk
        · simp [h3]
        · simp [h3]
      obtain ⟨hd, ho⟩ := ih (processFetch st1 t) (processFetch st2 t)
        (by rw [e2, e1hs]; simp [hhs])
        (by rw [e2]; exact hdisk)
      refine ⟨by rw [hd, e2], fun q hq => ?_⟩
      rcases ho q hq with h | h
      · rw [e2] at h
        simp only [List.mem_append, List.mem_singleton] at h
        rcases h with h | h
        · exact Or.inl h
        · subst h; exact Or.inr (by simp)
      · exact Or.inr h

/-- Claim C5 (amended): a completed fetch whose derived artifact name already
exists on disk does not write — the disk is unchanged and the outcome is
SkippedDuplicate; consequently, rerunning the exact pass over the same
completed fetches IN THE SAME COMPLETION ORDER against the run-1 artifact
directory produces zero new artifacts and reports every fetch as a duplicate.
(With a different completion order a rerun CAN store new artifacts — see the
counterexample.) -/
theorem rerunAmended (ts : List FetchTask) (st : RunState) (t : FetchTask)
    (hnotin : t.hash ∉ st.hashSet)
    (hmem : deriveName t.url t.hash ∈ st.disk) :
    ((processFetch st t).disk = st.disk ∧
     (processFetch st t).outcomes = st.outcomes ++ [(t, FetchOut.skippedOnDisk)]) ∧
    ((runSeq (runSeq [] ts).disk ts).disk = (runSeq [] ts).disk ∧
     ∀ q ∈ (runSeq (runSeq [] ts).disk ts).outcomes, q.2 ≠ FetchOut.storedNew) := by
  constructor
  · constructor <;> simp [processFetch, hnotin, hmem]
  · obtain ⟨hd, ho⟩ := rerun_aux ts ⟨[], [], []⟩ ⟨[], (runSeq [] ts).disk, []⟩ rfl rfl
    refine ⟨hd, fun q hq => ?_⟩
    rcases ho q hq with h | h
    · simp at h
    · exact h

/-- Witness for the amended C5 at a concrete input: a fetch whose derived
name is already on disk leaves the disk unchanged, and the same-order rerun
of a one-fetch pass stores nothing. -/
theorem rerunAmended_witness :
    ((processFetch ⟨[], [deriveName "http://a.com/x.js" "h1"], []⟩
        ⟨"http://a.com/x.js", "h1"⟩).disk = [deriveName "http://a.com/x.js" "h1"] ∧
     (processFetch ⟨[], [deriveName "http://a.com/x.js" "h1"], []⟩
        ⟨"http://a.com/x.js", "h1"⟩).outcomes
       = [] ++ [(⟨"http://a.com/x.js", "h1"⟩, FetchOut.skippedOnDisk)]) ∧
    ((runSeq (runSeq [] [⟨"http://a.com/x.js", "h1"⟩]).disk
        [⟨"http://a.com/x.js", "h1"⟩]).disk
      = (runSeq [] [⟨"http://a.com/x.js", "h1"⟩]).disk ∧
     ∀ q ∈ (runSeq (runSeq [] [⟨"http://a.com/x.js", "h1"⟩]).disk
        [⟨"http://a.com/x.js", "h1"⟩]).outcomes, q.2 ≠ FetchOut.storedNew) :=
  rerunAmended [⟨"http://a.com/x.js", "h1"⟩]
    ⟨[], [deriveName "http://a.com/x.js" "h1"], []⟩
    ⟨"http://a.com/x.js", "h1"⟩ (by decide) (by decide)

/-- Claim C5 counterexample: URLs A and B serve byte-identical bodies (same
content identifier "h"). Run 1 completes A before B and stores only A's
artifact. Rerunning the exact pass over the same URL list against run 1's
artifact directory, but with B completing first (a legal completion order of
the concurrent fetches), stores a NEW artifact for B — the rerun is not
idempotent and B is reported Stored, not as a duplicate. -/
theorem rerunCounterexample :
    (runSeq [] [⟨"http://a.com/x.js", "h"⟩, ⟨"http://b.com/y.js", "h"⟩]).disk
      = [deriveName "http://a.com/x.js" "h"] ∧
    (runSeq (runSeq [] [⟨"http://a.com/x.js", "h"⟩, ⟨"http://b.com/y.js", "h"⟩]).disk
        [⟨"http://b.com/y.js", "h"⟩, ⟨"http://a.com/x.js", "h"⟩]).disk
      = [deriveName "http://b.com/y.js" "h", deriveName "http://a.com/x.js" "h"] ∧
    (⟨⟨"http://b.com/y.js", "h"⟩, FetchOut.storedNew⟩ : FetchTask × FetchOut)
      ∈ (runSeq (runSeq [] [⟨"http://a.com/x.js", "h"⟩, ⟨"http://b.com/y.js", "h"⟩]).disk
          [⟨"http://b.com/y.js", "h"⟩, ⟨"http://a.com/x.js", "h"⟩]).outcomes :=
  ⟨by decide, by decide, by decide⟩

/-- The phase of one completed 200 fetch inside download_file's dedup
section, for the interleaved model. The two non-pending live phases bound the
two atomic regions of the source — the whole region between them contains no
await point, but the model lets other tasks run between and within-adjacent
regions, which only weakens the atomicity assumed of the code. -/
inductive DPhase where
  | pending : DPhase
  | toWrite : DPhase
  | doneStored : DPhase
  | doneSkipHash : DPhase
  | doneSkipDisk : DPhase
deriving Repr, DecidableEq

/-- A global state of the concurrently running dedup sections: the tasks with
their phases (a multiset — scheduling picks any of them), the shared
`hash_set`, and the artifact file names on disk. -/
structure Conc where
  tasks : Multiset (FetchTask × DPhase)
  hashSet : List String
  disk : List String

/-- Phases of a task that has passed the lock-guarded check-and-insert
having observed its hash as not present. -/
def passedPhase : DPhase → Bool
  | DPhase.toWrite => true
  | DPhase.doneStored => true
  | DPhase.doneSkipDisk => true
  | _ => false

/-- Number of tasks with content identifier `h` that have passed the
check-and-insert observing `h` as not present. -/
def passedA (m : Multiset (FetchTask × DPhase)) (h : String) : Nat :=
  Multiset.countP (fun p => p.1.hash = h ∧ passedPhase p.2 = true) m

/-- Number of tasks with content identifier `h` that wrote an artifact. -/
def storedCountH (m : Multiset (FetchTask × DPhase)) (h : String) : Nat :=
  Multiset.countP (fun p => p.1.hash = h ∧ p.2 = DPhase.doneStored) m

/-- The artifact names written by the tasks that stored. -/
def storedNames (m : Multiset (FetchTask × DPhase)) : Multiset String :=
  (m.filter (fun p => p.2 = DPhase.doneStored)).map
    (fun p => deriveName p.1.url p.1.hash)

/-- The initial state: all completed fetches pending, the per-run hash set
empty, the artifact directory holding `pre`. -/
def initConc (ts : List FetchTask) (pre : List String) : Conc :=
  ⟨(↑(ts.map (fun t => (t, DPhase.pending))) : Multiset (FetchTask × DPhase)), [], pre⟩

/-- Interleaved execution of download_file's dedup section, download.py lines
67 to 99: `checkHit`/`checkMiss` is the atomic lock-guarded check-and-insert
on `hash_set` (atomic because `async with hash_lock:` serializes it and the
region contains no await); `writeHit`/`writeMiss` is the synchronous
`file_path.exists()` check followed by the write (no await point between
them). Any task may take its next step at any time. -/
inductive CStep : Conc → Conc → Prop where
  | checkHit (t : FetchTask) (rest : Multiset (FetchTask × DPhase))
      (hs disk : List String) (hmem : t.hash ∈ hs) :
      CStep ⟨(t, DPhase.pending) ::ₘ rest, hs, disk⟩
            ⟨(t, DPhase.doneSkipHash) ::ₘ rest, hs, disk⟩
  | checkMiss (t : FetchTask) (rest : Multiset (FetchTask × DPhase))
      (hs disk : List String) (hmem : t.hash ∉ hs) :
      CStep ⟨(t, DPhase.pending) ::ₘ rest, hs, disk⟩
            ⟨(t, DPhase.toWrite) ::ₘ rest, t.hash :: hs, disk⟩
  | writeHit (t : FetchTask) (rest : Multiset (FetchTask × DPhase))
      (hs disk : List String) (hmem : deriveName t.url t.hash ∈ disk) :
      CStep ⟨(t, DPhase.toWrite) ::ₘ rest, hs, disk⟩
            ⟨(t, DPhase.doneSkipDisk) ::ₘ rest, hs, disk⟩
  | writeMiss (t : FetchTask) (rest : Multiset (FetchTask × DPhase))
      (hs disk : List String) (hmem : deriveName t.url t.hash ∉ disk) :
      CStep ⟨(t, DPhase.toWrite) ::ₘ rest, hs, disk⟩
            ⟨(t, DPhase.doneStored) ::ₘ rest, hs, deriveName t.url t.hash :: disk⟩

/-- The inductive invariant of the concurrent dedup section. -/
structure ConcInv (pre : List String) (T : Multiset FetchTask) (s : Conc) : Prop where
  fstEq : s.tasks.map Prod.fst = T
  hsIff : ∀ h, h ∈ s.hashSet ↔ 1 ≤ passedA s.tasks h
  atMostOne : ∀ h, passedA s.tasks h ≤ 1
  skipMem : ∀ p ∈ s.tasks, p.2 = DPhase.doneSkipHash → p.1.hash ∈ s.hashSet
  diskEq : (↑s.disk : Multiset String) = (↑pre : Multiset String) + storedNames s.tasks

/-- Counting the passers after putting one task pair in front. -/
theorem passedA_cons (t : FetchTask) (ph : DPhase)
    (rest : Multiset (FetchTask × DPhase)) (h : String) :
    passedA ((t, ph) ::ₘ rest) h
      = passedA rest h + (if t.hash = h ∧ passedPhase ph = true then 1 else 0) := by
  simp [passedA, Multiset.countP_cons]

/-- The invariant holds initially. -/
theorem concInv_init (ts : List FetchTask) (pre : List String) :
    ConcInv pre (↑ts) (initConc ts pre) := by
  have hpa : ∀ h, passedA (initConc ts pre).tasks h = 0 := by
    intro h
    rw [passedA, Multiset.countP_eq_zero]
    intro p hp
    simp only [initConc, Multiset.mem_coe, List.mem_map] at hp
    obtain ⟨t, _, rfl⟩ := hp
    simp [passedPhase]
  constructor
  · show Multiset.map Prod.fst
        (↑(ts.map (fun t => (t, DPhase.pending))) : Multiset (FetchTask × DPhase)) = ↑ts
    rw [Multiset.map_coe, List.map_map]
    have : (Prod.fst ∘ fun t : FetchTask => (t, DPhase.pending)) = id := rfl
    rw [this, List.map_id]
  · intro h
    rw [hpa]
    simp [initConc]
  · intro h
    simp [hpa]
  · intro p hp hph
    simp only [initConc, Multiset.mem_coe, List.mem_map] at hp
    obtain ⟨t, _, rfl⟩ := hp
    simp at hph
  · have : storedNames (initConc ts pre).tasks = 0 := by
      rw [storedNames]
      have hf : (initConc ts pre).tasks.filter (fun p => p.2 = DPhase.doneStored) = 0 := by
        rw [Multiset.filter_eq_nil]
        intro p hp
        simp only [initConc, Multiset.mem_coe, List.mem_map] at hp
        obtain ⟨t, _, rfl⟩ := hp
        simp
      rw [hf]
      simp
    rw [this]
    simp [initConc]

/-- Each step preserves the invariant. -/
theorem concInv_step {pre : List String} {T : Multiset FetchTask} {s s' : Conc}
    (hstep : CStep s s') (hinv : ConcInv pre T s) : ConcInv pre T s' := by
  obtain ⟨fstEq, hsIff, atMostOne, skipMem, diskEq⟩ := hinv
  cases hstep with
  | checkHit t rest hs disk hmem =>
    have hpa : ∀ h, passedA ((t, DPhase.doneSkipHash) ::ₘ rest) h
        = passedA ((t, DPhase.pending) ::ₘ rest) h := by
      intro h
      rw [passedA_cons, passedA_cons]
      simp [passedPhase]
    constructor
    · simpa [Multiset.map_cons] using fstEq
    · intro h; rw [hpa]; exact hsIff h
    · intro h; rw [hpa]; exact atMostOne h
    · intro p hp hph
      rw [Multiset.mem_cons] at hp
      rcases hp with rfl | hp
      · exact hmem
      · exact skipMem p (Multiset.mem_cons_of_mem hp) hph
    · have : storedNames ((t, DPhase.doneSkipHash) ::ₘ rest)
          = storedNames ((t, DPhase.pending) ::ₘ rest) := by
        rw [storedNames, storedNames,
          Multiset.filter_cons_of_neg _ (by simp),
          Multiset.filter_cons_of_neg _ (by simp)]
      rw [this]
      exact diskEq
  | checkMiss t rest hs disk hmem =>
    have hzero : passedA ((t, DPhase.pending) ::ₘ rest) t.hash = 0 := by
      rcases Nat.eq_zero_or_pos (passedA ((t, DPhase.pending) ::ₘ rest) t.hash) with h0 | hpos
      · exact h0
      · exact absurd ((hsIff t.hash).2 hpos) hmem
    have hrest0 : passedA rest t.hash = 0 := by
      rw [passedA_cons] at hzero
      omega
    constructor
    · simpa [Multiset.map_cons] using fstEq
    · intro h
      rw [passedA_cons]
      by_cases hh : t.hash = h
      · subst hh
        simp [passedPhase, hrest0]
      · have := hsIff h
        rw [passedA_cons] at this
        simp only [List.mem_cons]
        simp [passedPhase, hh] at this ⊢
        constructor
        · intro hc
          rcases hc with hc | hc
          · exact absurd hc.symm hh
          · exact this.1 hc
        · intro hc
          exact Or.inr (this.2 hc)
    · intro h
      rw [passedA_cons]
      by_cases hh : t.hash = h
      · subst hh
        simp [passedPhase, hrest0]
      · have := atMostOne h
        rw [passedA_cons] at this
        simpa [passedPhase, hh] using this
    · intro p hp hph
      rw [Multiset.mem_cons] at hp
      rcases hp with rfl | hp
      · simp at hph
      · exact List.mem_cons_of_mem _
          (skipMem p (Multiset.mem_cons_of_mem hp) hph)
    · have : storedNames ((t, DPhase.toWrite) ::ₘ rest)
          = storedNames ((t, DPhase.pending) ::ₘ rest) := by
        rw [storedNames, storedNames,
          Multiset.filter_cons_of_neg _ (by simp),
          Multiset.filter_cons_of_neg _ (by simp)]
      rw [this]
      exact diskEq
  | writeHit t rest hs disk hmem =>
    have hpa : ∀ h, passedA ((t, DPhase.doneSkipDisk) ::ₘ rest) h
        = passedA ((t, DPhase.toWrite) ::ₘ rest) h := by
      intro h
      rw [passedA_cons, passedA_cons]
      simp [passedPhase]
    constructor
    · simpa [Multiset.map_cons] using fstEq
    · intro h; rw [hpa]; exact hsIff h
    · intro h; rw [hpa]; exact atMostOne h
    · intro p hp hph
      rw [Multiset.mem_cons] at hp
      rcases hp with rfl | hp
      · simp at hph
      · exact skipMem p (Multiset.mem_cons_of_mem hp) hph
    · have : storedNames ((t, DPhase.doneSkipDisk) ::ₘ rest)
          = storedNames ((t, DPhase.toWrite) ::ₘ rest) := by
        rw [storedNames, storedNames,
          Multiset.filter_cons_of_neg _ (by simp),
          Multiset.filter_cons_of_neg _ (by simp)]
      rw [this]
      exact diskEq
  | writeMiss t rest hs disk hmem =>
    have hpa : ∀ h, passedA ((t, DPhase.doneStored) ::ₘ rest) h
        = passedA ((t, DPhase.toWrite) ::ₘ rest) h := by
      intro h
      rw [passedA_cons, passedA_cons]
      simp [passedPhase]
    constructor
    · simpa [Multiset.map_cons] using fstEq
    · intro h; rw [hpa]; exact hsIff h
    · intro h; rw [hpa]; exact atMostOne h
    · intro p hp hph
      rw [Multiset.mem_cons] at hp
      rcases hp with rfl | hp
      · simp at hph
      · exact skipMem p (Multiset.mem_cons_of_mem hp) hph
    · have hnew : storedNames ((t, DPhase.doneStored) ::ₘ rest)
          = deriveName t.url t.hash ::ₘ storedNames rest := by
        rw [storedNames, storedNames, Multiset.filter_cons_of_pos _ (by simp)]
        simp
      have hold : storedNames ((t, DPhase.toWrite) ::ₘ rest) = storedNames rest := by
        rw [storedNames, storedNames, Multiset.filter_cons_of_neg _ (by simp)]
      rw [hold] at diskEq
      rw [hnew]
      have : (↑(deriveName t.url t.hash :: disk) : Multiset String)
          = deriveName t.url t.hash ::ₘ (↑disk : Multiset String) := rfl
      rw [this, diskEq]
      rw [← Multiset.singleton_add, ← Multiset.singleton_add, add_left_comm]

/-- The invariant holds in every reachable state. -/
theorem concInv_reaches {pre : List String} {T : Multiset FetchTask} {s s' : Conc}
    (h : Relation.ReflTransGen CStep s s') (hinv : ConcInv pre T s) :
    ConcInv pre T s' := by
  induction h with
  | refl => exact hinv
  | tail _ step ih => exact concInv_step step ih

/-- No task is in the on-disk-skip phase. -/
def NoSkipDisk (s : Conc) : Prop := ∀ p ∈ s.tasks, p.2 ≠ DPhase.doneSkipDisk

/-- With an empty initial artifact directory and 64-character hashes, the
on-disk existence check never fires: every artifact name on disk was written
by the unique task that passed the check-and-insert for that hash. -/
theorem noSkip_step {T : Multiset FetchTask} {s s' : Conc}
    (hlen : ∀ t ∈ T, t.hash.length = 64)
    (hinv : ConcInv [] T s) (hns : NoSkipDisk s) (hstep : CStep s s') :
    NoSkipDisk s' := by
  obtain ⟨fstEq, hsIff, atMostOne, skipMem, diskEq⟩ := hinv
  cases hstep with
  | checkHit t rest hs disk hmem =>
    intro p hp
    rw [Multiset.mem_cons] at hp
    rcases hp with rfl | hp
    · simp
    · exact hns p (Multiset.mem_cons_of_mem hp)
  | checkMiss t rest hs disk hmem =>
    intro p hp
    rw [Multiset.mem_cons] at hp
    rcases hp with rfl | hp
    · simp
    · exact hns p (Multiset.mem_cons_of_mem hp)
  | writeMiss t rest hs disk hmem =>
    intro p hp
    rw [Multiset.mem_cons] at hp
    rcases hp with rfl | hp
    · simp
    · exact hns p (Multiset.mem_cons_of_mem hp)
  | writeHit t rest hs disk hmem =>
    exfalso
    have hdisk0 : (↑disk : Multiset String)
        = storedNames ((t, DPhase.toWrite) ::ₘ rest) := by
      simpa using diskEq
    have hmem' : deriveName t.url t.hash ∈ storedNames ((t, DPhase.toWrite) ::ₘ rest) := by
      rw [← hdisk0]
      simpa using hmem
    rw [storedNames, Multiset.mem_map] at hmem'
    obtain ⟨p, hpf, hpn⟩ := hmem'
    rw [Multiset.mem_filter] at hpf
    obtain ⟨hpmem, hpstored⟩ := hpf
    have hprest : p ∈ rest := by
      rw [Multiset.mem_cons] at hpmem
      rcases hpmem with rfl | hp
      · simp at hpstored
      · exact hp
    have hlt : t.hash.length = 64 := by
      refine hlen t ?_
      rw [← fstEq]
      exact Multiset.mem_map_of_mem _ (Multiset.mem_cons_self _ _)
    have hlp : p.1.hash.length = 64 := by
      refine hlen p.1 ?_
      rw [← fstEq]
      exact Multiset.mem_map_of_mem _ (Multiset.mem_cons_of_mem hprest)
    have hhash : p.1.hash = t.hash :=
      deriveName_hash_eq p.1.url t.url p.1.hash t.hash (by rw [hlp, hlt]) hpn
    have h1 : 1 ≤ passedA rest t.hash := by
      have hpos : 0 < Multiset.countP
          (fun q => q.1.hash = t.hash ∧ passedPhase q.2 = true) rest :=
        Multiset.countP_pos.2 ⟨p, hprest, ⟨hhash, by rw [hpstored]; rfl⟩⟩
      exact hpos
    have h2 : 2 ≤ passedA ((t, DPhase.toWrite) ::ₘ rest) t.hash := by
      rw [passedA_cons]
      have : (if t.hash = t.hash ∧ passedPhase DPhase.toWrite = true then 1 else 0) = 1 := by
        simp [passedPhase]
      omega
    have hA : passedA ((t, DPhase.toWrite) ::ₘ rest) t.hash ≤ 1 := atMostOne t.hash
    omega

/-- Both the invariant and the absence of on-disk skips hold in every state
reachable from a fresh run over 64-character content identifiers. -/
theorem concOk_reaches (ts : List FetchTask) (s : Conc)
    (hlen : ∀ t ∈ ts, t.hash.length = 64)
    (h : Relation.ReflTransGen CStep (initConc ts []) s) :
    ConcInv [] (↑ts) s ∧ NoSkipDisk s := by
  have hlen' : ∀ t ∈ (↑ts : Multiset FetchTask), t.hash.length = 64 := by
    intro t ht
    exact hlen t (by simpa using ht)
  induction h with
  | refl =>
    refine ⟨concInv_init ts [], ?_⟩
    intro p hp
    simp only [initConc, Multiset.mem_coe, List.mem_map] at hp
    obtain ⟨t, _, rfl⟩ := hp
    simp
  | tail _ step ih =>
    exact ⟨concInv_step step ih.1, noSkip_step hlen' ih.1 ih.2 step⟩

/-- Stored tasks for a hash are among its passers. -/
theorem storedCountH_le_passedA (m : Multiset (FetchTask × DPhase)) (h : String) :
    storedCountH m h ≤ passedA m h := by
  refine Multiset.induction_on m (by simp [storedCountH, passedA]) ?_
  intro a s ih
  unfold storedCountH passedA at ih ⊢
  rw [Multiset.countP_cons, Multiset.countP_cons]
  have hind : (if a.1.hash = h ∧ a.2 = DPhase.doneStored then 1 else 0)
      ≤ (if a.1.hash = h ∧ passedPhase a.2 = true then 1 else 0) := by
    by_cases h1 : a.1.hash = h ∧ a.2 = DPhase.doneStored
    · have h2 : a.1.hash = h ∧ passedPhase a.2 = true := ⟨h1.1, by rw [h1.2]; rfl⟩
      simp [h1, h2, passedPhase]
    · simp [h1]
  omega

/-- In a final state with no on-disk skips, the passers for a hash are
exactly the tasks that stored. -/
theorem storedCountH_eq_passedA_final (h : String)
    (m : Multiset (FetchTask × DPhase)) :
    (∀ p ∈ m, p.2 = DPhase.doneStored ∨ p.2 = DPhase.doneSkipHash
      ∨ p.2 = DPhase.doneSkipDisk) →
    (∀ p ∈ m, p.2 ≠ DPhase.doneSkipDisk) →
    storedCountH m h = passedA m h := by
  refine Multiset.induction_on m (by intro _ _; simp [storedCountH, passedA]) ?_
  intro a s ih hfin hns
  have ihs := ih (fun p hp => hfin p (Multiset.mem_cons_of_mem hp))
    (fun p hp => hns p (Multiset.mem_cons_of_mem hp))
  have hind : (if a.1.hash = h ∧ a.2 = DPhase.doneStored then 1 else 0)
      = (if a.1.hash = h ∧ passedPhase a.2 = true then 1 else 0) := by
    rcases hfin a (Multiset.mem_cons_self a s) with ha | ha | ha
    · simp [ha, passedPhase]
    · simp [ha, passedPhase]
    · exact absurd ha (hns a (Multiset.mem_cons_self a s))
  unfold storedCountH passedA at ihs ⊢
  rw [Multiset.countP_cons, Multiset.countP_cons, ihs, hind]

/-- Counting over the coercion of a list matches filtering the list. -/
theorem countP_coe_filter (q : String → Bool) :
    ∀ l : List String,
      Multiset.countP (fun n => q n = true) (↑l) = (l.filter q).length := by
  intro l
  induction l with
  | nil => simp
  | cons a l ih =>
    have hcons : (↑(a :: l) : Multiset String) = a ::ₘ (↑l : Multiset String) := rfl
    rw [hcons, Multiset.countP_cons, ih, List.filter_cons]
    by_cases hq : q a
    · simp [hq]
    · simp [hq]

/-- The artifact names written for hash `h` count exactly the tasks with hash
`h` that stored (hashes of 64 characters). -/
theorem countP_storedNames (h : String) (hh : h.length = 64)
    (m : Multiset (FetchTask × DPhase)) :
    (∀ p ∈ m, p.1.hash.length = 64) →
    Multiset.countP (fun n => isFileFor h n = true) (storedNames m)
      = storedCountH m h := by
  refine Multiset.induction_on m (by intro _; simp [storedNames, storedCountH]) ?_
  intro a s ih hlen
  have ihs := ih (fun p hp => hlen p (Multiset.mem_cons_of_mem hp))
  have ha64 : a.1.hash.length = 64 := hlen a (Multiset.mem_cons_self a s)
  unfold storedNames storedCountH at ihs ⊢
  by_cases hst : a.2 = DPhase.doneStored
  · rw [Multiset.filter_cons_of_pos _ (by simp [hst]), Multiset.map_cons,
      Multiset.countP_cons, Multiset.countP_cons, ihs]
    congr 1
    have hiff := isFileFor_deriveName h a.1.url a.1.hash (by rw [hh, ha64])
    by_cases hhh : a.1.hash = h
    · have hfile : isFileFor h (deriveName a.1.url a.1.hash) = true := hiff.2 hhh.symm
      rw [hhh] at hfile
      simp [hfile, hhh, hst]
    · have : ¬(isFileFor h (deriveName a.1.url a.1.hash) = true) := by
        intro hc
        exact hhh (hiff.1 hc).symm
      simp [this, hhh]
  · rw [Multiset.filter_cons_of_neg _ (by simp [hst]), Multiset.countP_cons, ihs]
    simp [hst]

/-- Claim C1: for every schedule of concurrently running successful fetches
(starting from an empty artifact directory, hashes being 64-character sha256
hex digests), in every final state: (1) for each content identifier at most
one fetch observed it as not present and proceeded to Stored — the
lock-guarded check-then-insert is atomic; (2) every other fetch reports
SkippedDuplicate (one of the two skip outcomes); and (3) for each content
identifier that occurs among the fetches, exactly one fetch stored and the
artifact directory contains exactly one file for it — one file per distinct
body, regardless of fetch order or concurrency level. -/
theorem dedupAtomicity (ts : List FetchTask) (s : Conc)
    (hlen : ∀ t ∈ ts, t.hash.length = 64)
    (hreach : Relation.ReflTransGen CStep (initConc ts []) s)
    (hfinal : ∀ p ∈ s.tasks, p.2 = DPhase.doneStored ∨ p.2 = DPhase.doneSkipHash
      ∨ p.2 = DPhase.doneSkipDisk) :
    (∀ h, storedCountH s.tasks h ≤ 1) ∧
    (∀ p ∈ s.tasks, p.2 ≠ DPhase.doneStored →
        p.2 = DPhase.doneSkipHash ∨ p.2 = DPhase.doneSkipDisk) ∧
    (∀ h, (∃ t ∈ ts, t.hash = h) →
        storedCountH s.tasks h = 1 ∧
        (s.disk.filter (fun n => isFileFor h n)).length = 1) := by
  obtain ⟨hinv, hns⟩ := concOk_reaches ts s hlen hreach
  obtain ⟨fstEq, hsIff, atMostOne, skipMem, diskEq⟩ := hinv
  refine ⟨?_, ?_, ?_⟩
  · intro h
    exact le_trans (storedCountH_le_passedA s.tasks h) (atMostOne h)
  · intro p hp hne
    rcases hfinal p hp with h | h | h
    · exact absurd h hne
    · exact Or.inl h
    · exact Or.inr h
  · rintro h ⟨t, htmem, hth⟩
    have hh64 : h.length = 64 := hth ▸ hlen t htmem
    have htm : t ∈ Multiset.map Prod.fst s.tasks := by
      rw [fstEq]
      simpa using htmem
    rw [Multiset.mem_map] at htm
    obtain ⟨p, hpmem, hpt⟩ := htm
    have hph : p.1.hash = h := by rw [hpt, hth]
    have hone : 1 ≤ passedA s.tasks h := by
      rcases hfinal p hpmem with hst | hsk | hsd
      · have hpos : 0 < Multiset.countP
            (fun q => q.1.hash = h ∧ passedPhase q.2 = true) s.tasks :=
          Multiset.countP_pos.2 ⟨p, hpmem, ⟨hph, by rw [hst]; rfl⟩⟩
        exact hpos
      · have := skipMem p hpmem hsk
        rw [hph] at this
        exact (hsIff h).1 this
      · exact absurd hsd (hns p hpmem)
    have hpa1 : passedA s.tasks h = 1 := le_antisymm (atMostOne h) hone
    have heqc : storedCountH s.tasks h = 1 := by
      rw [storedCountH_eq_passedA_final h s.tasks hfinal hns, hpa1]
    refine ⟨heqc, ?_⟩
    have hlen' : ∀ q ∈ s.tasks, q.1.hash.length = 64 := by
      intro q hq
      refine hlen q.1 ?_
      have : q.1 ∈ Multiset.map Prod.fst s.tasks := Multiset.mem_map_of_mem _ hq
      rw [fstEq] at this
      simpa using this
    have hdisk0 : (↑s.disk : Multiset String) = storedNames s.tasks := by
      simpa using diskEq
    calc (s.disk.filter (fun n => isFileFor h n)).length
        = Multiset.countP (fun n => isFileFor h n = true) (↑s.disk) :=
          (countP_coe_filter (fun n => isFileFor h n) s.disk).symm
      _ = Multiset.countP (fun n => isFileFor h n = true) (storedNames s.tasks) := by
          rw [hdisk0]
      _ = storedCountH s.tasks h := countP_storedNames h hh64 s.tasks hlen'
      _ = 1 := heqc

/-- Witness for C1 at a concrete schedule: a single completed fetch with a
64-character content identifier takes its two atomic steps (check-and-insert,
then write); in the resulting final state exactly one task stored and the
artifact directory holds exactly one file for that identifier. -/
theorem dedupAtomicity_witness :
    storedCountH
        ((⟨⟨"http://a.com/x.js",
            "aaaaaaaaaaaaaaaaaaaaaaaaaaaaaaaaaaaaaaaaaaaaaaaaaaaaaaaaaaaaaaaa"⟩,
          DPhase.doneStored⟩ : FetchTask × DPhase) ::ₘ 0)
        "aaaaaaaaaaaaaaaaaaaaaaaaaaaaaaaaaaaaaaaaaaaaaaaaaaaaaaaaaaaaaaaa" = 1 ∧
    ([deriveName "http://a.com/x.js"
        "aaaaaaaaaaaaaaaaaaaaaaaaaaaaaaaaaaaaaaaaaaaaaaaaaaaaaaaaaaaaaaaa"].filter
      (fun n => isFileFor
        "aaaaaaaaaaaaaaaaaaaaaaaaaaaaaaaaaaaaaaaaaaaaaaaaaaaaaaaaaaaaaaaa" n)).length
      = 1 := by
  have hres := dedupAtomicity
    [⟨"http://a.com/x.js",
      "aaaaaaaaaaaaaaaaaaaaaaaaaaaaaaaaaaaaaaaaaaaaaaaaaaaaaaaaaaaaaaaa"⟩]
    ⟨(⟨⟨"http://a.com/x.js",
        "aaaaaaaaaaaaaaaaaaaaaaaaaaaaaaaaaaaaaaaaaaaaaaaaaaaaaaaaaaaaaaaa"⟩,
      DPhase.doneStored⟩ : FetchTask × DPhase) ::ₘ 0,
     ["aaaaaaaaaaaaaaaaaaaaaaaaaaaaaaaaaaaaaaaaaaaaaaaaaaaaaaaaaaaaaaaa"],
     [deriveName "http://a.com/x.js"
        "aaaaaaaaaaaaaaaaaaaaaaaaaaaaaaaaaaaaaaaaaaaaaaaaaaaaaaaaaaaaaaaa"]⟩
    (by decide)
    (Relation.ReflTransGen.head
      (CStep.checkMiss
        ⟨"http://a.com/x.js",
          "aaaaaaaaaaaaaaaaaaaaaaaaaaaaaaaaaaaaaaaaaaaaaaaaaaaaaaaaaaaaaaaa"⟩
        0 [] [] (by simp))
      (Relation.ReflTransGen.head
        (CStep.writeMiss
          ⟨"http://a.com/x.js",
            "aaaaaaaaaaaaaaaaaaaaaaaaaaaaaaaaaaaaaaaaaaaaaaaaaaaaaaaaaaaaaaaa"⟩
          0 ["aaaaaaaaaaaaaaaaaaaaaaaaaaaaaaaaaaaaaaaaaaaaaaaaaaaaaaaaaaaaaaaa"]
          [] (by simp))
        Relation.ReflTransGen.refl))
    (by
      intro p hp
      rw [Multiset.mem_cons] at hp
      rcases hp with rfl | hp
      · exact Or.inl rfl
      · exact absurd hp (Multiset.not_mem_zero p))
  exact hres.2.2
    "aaaaaaaaaaaaaaaaaaaaaaaaaaaaaaaaaaaaaaaaaaaaaaaaaaaaaaaaaaaaaaaa"
    ⟨⟨"http://a.com/x.js",
       "aaaaaaaaaaaaaaaaaaaaaaaaaaaaaaaaaaaaaaaaaaaaaaaaaaaaaaaaaaaaaaaa"⟩,
     by simp, rfl⟩

end MJSR
